import Mathlib

/-!
Shallow embedding of `mcp_simple_arxiv/arxiv_client.py` (`ArxivClient`): the
rate gate `_wait_for_rate_limit`, the text normalization `_clean_text`, the
entry normalization `_parse_entry`, and the two operations `search` and
`get_paper`, together with proofs about the properties the design document
states for them.

Conventions of the embedding:
* Python strings are Lean `String`s; character-level routines work on
  `List Char` (`String.data`).
* `dict.get(k, d)` on an optional field is `Option.getD`.
* Wall-clock times are rationals (seconds); the rate gate is modelled under an
  idealized clock: `datetime.now()` is monotone and `asyncio.sleep(x)` sleeps
  exactly `x` seconds. The lock in `_wait_for_rate_limit` serializes the
  critical sections, so a run of N concurrent callers is a sequence of
  `rateAcquire` steps, each seeded with the state the previous one left.
* A raised Python exception is an `Except.error` carrying the exception's
  class name and message.
-/

/-- The characters Python's `str.split()` (no argument) and `str.rstrip()`
treat as whitespace, restricted to the ASCII range: space, tab, newline,
vertical tab, form feed, carriage return. -/
def isPySpace (c : Char) : Bool :=
  c = ' ' || c = '\t' || c = '\n' || c = '\x0b' || c = '\x0c' || c = '\r'

/-- Python `str.split()` with no argument: split on runs of whitespace,
discarding leading and trailing whitespace, at the character level. `acc`
holds the characters of the token being read, in reverse. -/
def pySplitAux : List Char → List Char → List (List Char)
  | [], acc => if acc.isEmpty then [] else [acc.reverse]
  | c :: cs, acc =>
    if isPySpace c then
      if acc.isEmpty then pySplitAux cs [] else acc.reverse :: pySplitAux cs []
    else pySplitAux cs (c :: acc)

def pySplitWhitespace (l : List Char) : List (List Char) := pySplitAux l []

/-- Python `" ".join(ts)` at the character level. -/
def joinSpace : List (List Char) → List Char
  | [] => []
  | t :: ts => if ts.isEmpty then t else t ++ ' ' :: joinSpace ts

/-- Mirrors `ArxivClient._clean_text`: `" ".join(text.split())`. -/
def cleanText (s : String) : String := ⟨joinSpace (pySplitWhitespace s.data)⟩

/-- The separator `"/abs/"` on which `_parse_entry` splits the identifier URI. -/
def absSep : List Char := "/abs/".data

/-- Python `str.split("/abs/")` at the character level: scan left to right,
splitting at each (non-overlapping) occurrence of the separator. The leading
`Nat` is structural-recursion fuel; every use supplies fuel `≥` the length of
the list, which makes the fuel-exhausted branch unreachable. -/
def splitAbsAux : Nat → List Char → List Char → List (List Char)
  | _, [], acc => [acc.reverse]
  | 0, l, acc => [acc.reverse ++ l]
  | fuel + 1, c :: cs, acc =>
    if absSep.isPrefixOf (c :: cs) then
      acc.reverse :: splitAbsAux fuel (List.drop absSep.length (c :: cs)) []
    else splitAbsAux fuel cs (c :: acc)

def splitAbs (l : List Char) : List (List Char) := splitAbsAux l.length l []

/-- Python `lst[-1]` on the result of a split (a split result is never empty). -/
def lastElem (ls : List (List Char)) : List Char := ls.getLast?.getD []

/-- Python `str.rstrip()`: drop trailing whitespace. -/
def pyRstrip (l : List Char) : List Char := (l.reverse.dropWhile isPySpace).reverse

/-- Mirrors `entry.get('id', '').split("/abs/")[-1].rstrip()` from
`_parse_entry`. -/
def extractId (ident : Option String) : String :=
  ⟨pyRstrip (lastElem (splitAbs (ident.getD "").data))⟩

/-- A feed item as the parsing library hands it to the author/tag loops of
`_parse_entry`: either a mapping (`isinstance(item, dict)` is true) with
string-valued keys, or a non-mapping object with attributes, reached through
`hasattr`/attribute access. -/
inductive FeedItem where
  | dict (fields : List (String × String))
  | obj (attrs : List (String × String))
deriving DecidableEq

/-- One element of `entry.links`: a mapping with optional `type` and `href`
keys, or a non-mapping value, which the link loop of `_parse_entry` skips. -/
inductive LinkItem where
  | dict (ty : Option String) (href : Option String)
  | nonDict
deriving DecidableEq

/-- One feed entry as `_parse_entry` receives it: a mapping of
possibly-missing fields (`entry.get(...)` is `Option.getD`). -/
structure FeedEntry where
  id : Option String := none
  title : Option String := none
  summary : Option String := none
  links : List LinkItem := []
  authors : List FeedItem := []
  tags : List FeedItem := []
  published : Option String := none
  updated : Option String := none
  arxiv_comment : Option String := none
  arxiv_journal_ref : Option String := none
  arxiv_doi : Option String := none
  arxiv_primary_category : Option (List (String × String)) := none
deriving DecidableEq

/-- The normalized paper dictionary `_parse_entry` returns. -/
structure Paper where
  id : String
  title : String
  authors : List String
  categories : List String
  published : String
  updated : String
  summary : String
  comment : String
  journal_ref : String
  doi : String
  primary_category : Option String
  pdf_url : Option String
  html_url : Option String
deriving DecidableEq

/-- The `for link in entry.get('links', [])` loop of `_parse_entry`: each
mapping link whose `type` equals the PDF media type overwrites `pdf_url` with
its `href`; otherwise, each one whose `type` equals the HTML media type
overwrites `html_url`. The accumulator is the `(pdf_url, html_url)` pair. -/
def scanLinks : List LinkItem → Option String × Option String → Option String × Option String
  | [], acc => acc
  | .nonDict :: rest, acc => scanLinks rest acc
  | .dict ty href :: rest, (p, h) =>
    if ty = some "application/pdf" then scanLinks rest (href, h)
    else if ty = some "text/html" then scanLinks rest (p, href)
    else scanLinks rest (p, h)

/-- `item['name']` when the item is a mapping containing the key `name`,
`item.name` when it is an object exposing the attribute, `none` otherwise (a
`none` item is skipped by the loop). -/
def itemName : FeedItem → Option String
  | .dict fields => fields.lookup "name"
  | .obj attrs => attrs.lookup "name"

/-- Same as `itemName` for the key/attribute `term` of a tag item. -/
def itemTerm : FeedItem → Option String
  | .dict fields => fields.lookup "term"
  | .obj attrs => attrs.lookup "term"

/-- The author loop of `_parse_entry`: append each extractable name, in
encountered order, skipping items with no extractable name. -/
def collectNames : List FeedItem → List String
  | [] => []
  | it :: rest =>
    match itemName it with
    | some n => n :: collectNames rest
    | none => collectNames rest

/-- The category (tag) loop of `_parse_entry`. -/
def collectTerms : List FeedItem → List String
  | [] => []
  | it :: rest =>
    match itemTerm it with
    | some t => t :: collectTerms rest
    | none => collectTerms rest

/-- Mirrors `ArxivClient._parse_entry`. -/
def parseEntry (e : FeedEntry) : Paper :=
  let urls := scanLinks e.links (none, none)
  { id := extractId e.id
    title := cleanText (e.title.getD "")
    authors := collectNames e.authors
    categories := collectTerms e.tags
    published := e.published.getD ""
    updated := e.updated.getD ""
    summary := cleanText (e.summary.getD "")
    comment := cleanText (e.arxiv_comment.getD "")
    journal_ref := e.arxiv_journal_ref.getD ""
    doi := e.arxiv_doi.getD ""
    primary_category := (e.arxiv_primary_category.getD []).lookup "term"
    pdf_url := urls.1
    html_url := urls.2 }

/-- Mirrors `_wait_for_rate_limit` under the idealized clock: given the stored
`_last_request` timestamp and the time `enter` (seconds) at which the caller
enters the critical section, return `(wait, dispatch)`: the seconds slept and
the value of `datetime.now()` recorded as the new `_last_request` right before
the critical section is released. -/
def rateAcquire (last : Option ℚ) (enter : ℚ) : ℚ × ℚ :=
  match last with
  | none => (0, enter)
  | some l =>
    if enter - l < 3 then (3 - (enter - l), enter + (3 - (enter - l)))
    else (0, enter)

/-- The recorded dispatch timestamps of a sequence of serialized `acquire`
calls on one client: `enters` lists the critical-section entry times in the
order the lock admits the callers; each call is seeded with the timestamp the
previous call stored. -/
def dispatchTimes : Option ℚ → List ℚ → List ℚ
  | _, [] => []
  | last, e :: es =>
    let d := (rateAcquire last e).2
    d :: dispatchTimes (some d) es

/-- A raised Python exception: its class name and its message. Every raise
site in `arxiv_client.py` uses the class `ValueError`. -/
structure PyExc where
  ty : String
  msg : String
deriving DecidableEq

/-- The value `feedparser.parse` returns (a `FeedParserDict`). `isDict` models
`isinstance(feed, dict)`; `hasEntriesKey` models `'entries' in feed`. -/
structure ParsedFeed where
  isDict : Bool
  hasEntriesKey : Bool
  entries : List FeedEntry
  bozo : Bool
deriving DecidableEq

/-- An HTTP response body, classified by whether it parses as a feed:
`feedBody es` stands for a body the feed parser reads as a feed with entry
list `es`; `nonFeed` stands for a body that is not a parseable feed at all
(for example the empty string, or plain text). -/
inductive Body where
  | feedBody (entries : List FeedEntry)
  | nonFeed (raw : String)
deriving DecidableEq

/-- Modelled from the spec: the feed parser is the external `feedparser`
library, which is not part of this repository. Per its documented behavior,
`feedparser.parse` never raises; for any input it returns a `FeedParserDict`
(a `dict` subclass) that always contains an `entries` key; a body that is not
a parseable feed yields an empty entry list with the `bozo` flag set. -/
def feedparse : Body → ParsedFeed
  | .feedBody es => ⟨true, true, es, false⟩
  | .nonFeed _ => ⟨true, true, [], true⟩

/-- The outcome of the HTTP GET inside `search`/`get_paper`: either an
`httpx.HTTPError` is raised (connection failure, or a non-2xx status through
`raise_for_status`), or a response body is obtained. -/
inductive HttpResult where
  | httpError (msg : String)
  | ok (body : Body)
deriving DecidableEq

/-- The feed-handling tail of `ArxivClient.search` (lines 118-129): the
invalid-response guard, the empty-entries early return, and the per-entry
normalization. -/
def searchOnFeed (feed : ParsedFeed) : Except PyExc (List Paper) :=
  if !feed.isDict || !feed.hasEntriesKey then
    .error ⟨"ValueError", "Invalid response from arXiv API"⟩
  else if feed.entries.isEmpty then .ok []
  else .ok (feed.entries.map parseEntry)

/-- The feed-handling tail of `ArxivClient.get_paper` (lines 157-166). -/
def getPaperOnFeed (paperId : String) (feed : ParsedFeed) : Except PyExc Paper :=
  if !feed.isDict || !feed.hasEntriesKey then
    .error ⟨"ValueError", "Invalid response from arXiv API"⟩
  else
    match feed.entries with
    | [] => .error ⟨"ValueError", "Paper not found: " ++ paperId⟩
    | e :: _ => .ok (parseEntry e)

/-- The response handling of `search`: an `httpx.HTTPError` is caught and
re-raised as `ValueError("arXiv API HTTP error: ...")`; otherwise the body is
parsed and handled by `searchOnFeed`. -/
def searchResult (resp : HttpResult) : Except PyExc (List Paper) :=
  match resp with
  | .httpError m => .error ⟨"ValueError", "arXiv API HTTP error: " ++ m⟩
  | .ok body => searchOnFeed (feedparse body)

/-- The response handling of `get_paper`. -/
def getPaperResult (paperId : String) (resp : HttpResult) : Except PyExc Paper :=
  match resp with
  | .httpError m => .error ⟨"ValueError", "arXiv API HTTP error: " ++ m⟩
  | .ok body => getPaperOnFeed paperId (feedparse body)

/-- The query parameters `search` sends. -/
structure SearchParams where
  search_query : String
  max_results : ℤ
  sortBy : String
  sortOrder : String
deriving DecidableEq

/-- Mirrors lines 102-110 of `search`: `max_results = min(max_results, 2000)`
and the request parameter dictionary. -/
def buildSearchParams (query : String) (maxResults : ℤ) : SearchParams :=
  { search_query := query
    max_results := min maxResults 2000
    sortBy := "submittedDate"
    sortOrder := "descending" }

/-- Observable effects of one client call, in program order: the rate gate
records a dispatch timestamp, then the HTTP GET is issued (carrying its
`max_results` parameter). -/
inductive CallEvent where
  | rateDispatch (t : ℚ)
  | httpGet (t : ℚ) (maxResults : ℤ)
deriving DecidableEq

/-- What one full client call produces: the new rate-gate state, the effect
trace, and the returned value or raised exception. -/
structure CallOutcome (α : Type) where
  newLast : Option ℚ
  events : List CallEvent
  result : Except PyExc α

/-- One full `ArxivClient.search` call: `_wait_for_rate_limit` runs first and
stores the dispatch timestamp, then the HTTP request is issued at the dispatch
time with the clamped `max_results`, then the response is handled. -/
def searchCall (last : Option ℚ) (enter : ℚ) (query : String) (maxResults : ℤ)
    (resp : HttpResult) : CallOutcome (List Paper) :=
  let d := (rateAcquire last enter).2
  { newLast := some d
    events := [.rateDispatch d, .httpGet d (buildSearchParams query maxResults).max_results]
    result := searchResult resp }

/-- One full `ArxivClient.get_paper` call (`id_list = paperId`,
`max_results = 1`). -/
def getPaperCall (last : Option ℚ) (enter : ℚ) (paperId : String)
    (resp : HttpResult) : CallOutcome Paper :=
  let d := (rateAcquire last enter).2
  { newLast := some d
    events := [.rateDispatch d, .httpGet d 1]
    result := getPaperResult paperId resp }

/-- The class of the exception a call raised, `none` for a successful call:
what a caller can see of a failure without inspecting the message text. -/
def resultExcType {α : Type} : Except PyExc α → Option String
  | .error e => some e.ty
  | .ok _ => none

/-- `isPdfLink l` holds when the link loop's first branch fires on `l`. -/
def isPdfLink : LinkItem → Bool
  | .dict ty _ => ty = some "application/pdf"
  | .nonDict => false

/-- `isHtmlLink l` holds when the link loop's second branch fires on `l`. -/
def isHtmlLink : LinkItem → Bool
  | .dict ty _ => ty = some "text/html"
  | .nonDict => false

/-- The `href` value of a mapping link (possibly absent). -/
def hrefOf : LinkItem → Option String
  | .dict _ href => href
  | .nonDict => none

/-- A collapsed text: every whitespace character in it is a plain space, no
two adjacent characters are both whitespace, and it neither starts nor ends
with whitespace. -/
def Collapsed (l : List Char) : Prop :=
  (∀ c ∈ l, isPySpace c = true → c = ' ') ∧
  List.Chain' (fun a b => ¬(isPySpace a = true ∧ isPySpace b = true)) l ∧
  (∀ c ∈ l.head?, isPySpace c = false) ∧
  (∀ c ∈ l.getLast?, isPySpace c = false)

/-- An entry whose link list holds two links of the PDF media type. -/
def twoPdfEntry : FeedEntry :=
  { links := [LinkItem.dict (some "application/pdf") (some "http://arxiv.org/pdf/first"),
              LinkItem.dict (some "application/pdf") (some "http://arxiv.org/pdf/second")] }

/-! ## Rate gate -/

/-- A step of the gate seeded with a stored timestamp dispatches at least the
interval after that timestamp, whatever the entry time. -/
lemma rateAcquire_gap (l e : ℚ) : 3 ≤ (rateAcquire (some l) e).2 - l := by
  simp only [rateAcquire]
  split <;> dsimp only <;> linarith

/-- Dispatch timestamps of a serialized run seeded with stored timestamp `l`:
the first one is at least `l + 3`, and adjacent ones are at least 3 apart. -/
lemma dispatchTimes_spec (es : List ℚ) :
    ∀ l : ℚ, (∀ d ∈ (dispatchTimes (some l) es).head?, 3 ≤ d - l) ∧
      List.Chain' (fun a b => 3 ≤ b - a) (dispatchTimes (some l) es) := by
  induction es with
  | nil => intro l; simp [dispatchTimes]
  | cons e es ih =>
    intro l
    simp only [dispatchTimes, Option.mem_def, List.head?_cons, Option.some.injEq]
    constructor
    · rintro d rfl
      exact rateAcquire_gap l e
    · exact List.chain'_cons'.mpr ⟨fun y hy => (ih _).1 y hy, (ih _).2⟩

/-- C1: for every serialized sequence of concurrent `acquire` calls on one
client (the first with no prior dispatch history), the recorded dispatch
timestamps are spaced at least the 3-second interval apart — and since they
come out in increasing order, they are their own sorted sequence — and a
single `acquire` with no prior history sleeps 0 seconds. -/
theorem rate_gate_min_spacing (e₀ : ℚ) (es : List ℚ) :
    List.Chain' (fun a b => 3 ≤ b - a) (dispatchTimes none (e₀ :: es)) ∧
    List.Chain' (fun a b : ℚ => a < b) (dispatchTimes none (e₀ :: es)) ∧
    (rateAcquire none e₀).1 = 0 := by
  have h : dispatchTimes none (e₀ :: es) = e₀ :: dispatchTimes (some e₀) es := rfl
  have hchain : List.Chain' (fun a b => 3 ≤ b - a) (dispatchTimes none (e₀ :: es)) := by
    rw [h]
    exact List.chain'_cons'.mpr
      ⟨fun y hy => (dispatchTimes_spec es e₀).1 y hy, (dispatchTimes_spec es e₀).2⟩
  refine ⟨hchain, ?_, rfl⟩
  exact List.Chain'.imp (fun a b hab => by linarith) hchain

/-- C10: a `search` or `get_paper` call records exactly one dispatch
timestamp, does so before the HTTP request is issued, and stores it as the new
gate state whatever the response (so a call that ends in an error still
consumes the rate slot), and the next call — whenever it enters — is
dispatched at least the full 3-second interval after it. -/
theorem rate_slot_consumed_before_request (last : Option ℚ) (enter : ℚ) (query : String)
    (maxResults : ℤ) (resp : HttpResult) (enter' : ℚ) (paperId : String) :
    (searchCall last enter query maxResults resp).newLast = some ((rateAcquire last enter).2) ∧
    (searchCall last enter query maxResults resp).events =
      [CallEvent.rateDispatch ((rateAcquire last enter).2),
       CallEvent.httpGet ((rateAcquire last enter).2) (min maxResults 2000)] ∧
    (getPaperCall last enter paperId resp).newLast = some ((rateAcquire last enter).2) ∧
    (getPaperCall last enter paperId resp).events =
      [CallEvent.rateDispatch ((rateAcquire last enter).2),
       CallEvent.httpGet ((rateAcquire last enter).2) 1] ∧
    3 ≤ (rateAcquire (some ((rateAcquire last enter).2)) enter').2 - (rateAcquire last enter).2 :=
  ⟨rfl, rfl, rfl, rfl, rateAcquire_gap _ enter'⟩

/-- C6: `search` issues its request with `max_results` equal to
`min maxResults 2000` — values above 2000 are reduced to 2000, values at or
below 2000 (zero and negative included) pass through unchanged, and
`maxResults = 5000` issues a request with `max_results = 2000`. -/
theorem search_clamps_max_results (query : String) (maxResults : ℤ) (last : Option ℚ)
    (enter : ℚ) (resp : HttpResult) :
    (buildSearchParams query maxResults).max_results = min maxResults 2000 ∧
    (2000 < maxResults → (buildSearchParams query maxResults).max_results = 2000) ∧
    (maxResults ≤ 2000 → (buildSearchParams query maxResults).max_results = maxResults) ∧
    (buildSearchParams query 5000).max_results = 2000 ∧
    (searchCall last enter query maxResults resp).events =
      [CallEvent.rateDispatch ((rateAcquire last enter).2),
       CallEvent.httpGet ((rateAcquire last enter).2) (min maxResults 2000)] := by
  refine ⟨rfl, fun h => ?_, fun h => ?_, by simp only [buildSearchParams]; decide, rfl⟩
  · simp only [buildSearchParams]
    omega
  · simp only [buildSearchParams]
    omega

/-! ## Error handling -/

/-- C5: empty parsed entry lists are asymmetric between the operations: for
every parsed feed whose entry list is empty, `search` returns the empty list
(a success), while `get_paper` raises `ValueError("Paper not found: <id>")`,
whose message carries the requested paper id. -/
theorem empty_entries_asymmetry (feed : ParsedFeed) (paperId : String)
    (hd : feed.isDict = true) (hk : feed.hasEntriesKey = true) (he : feed.entries = []) :
    searchOnFeed feed = .ok [] ∧
    getPaperOnFeed paperId feed = .error ⟨"ValueError", "Paper not found: " ++ paperId⟩ := by
  constructor
  · simp [searchOnFeed, hd, hk, he]
  · simp [getPaperOnFeed, hd, hk, he]

theorem empty_entries_asymmetry_witness :
    searchOnFeed ⟨true, true, [], false⟩ = .ok [] ∧
    getPaperOnFeed "2103.08220" ⟨true, true, [], false⟩ =
      .error ⟨"ValueError", "Paper not found: 2103.08220"⟩ :=
  empty_entries_asymmetry ⟨true, true, [], false⟩ "2103.08220" rfl rfl rfl

/-- C4 (code bug): evaluated at a response body that is not a parseable feed
at all (the empty string, or plain text), `search` returns the empty list — a
silently-empty success, not a malformed-response error — and `get_paper`
raises the not-found error; and the guard meant to catch invalid responses
(`not isinstance(feed, dict) or 'entries' not in feed`) can never fire,
because the feed parser returns a dict holding an `entries` key for every
input. -/
theorem nonfeed_body_yields_silent_empty :
    searchResult (.ok (.nonFeed "")) = .ok [] ∧
    searchResult (.ok (.nonFeed "plain text, not xml")) = .ok [] ∧
    getPaperResult "2103.08220" (.ok (.nonFeed "")) =
      .error ⟨"ValueError", "Paper not found: 2103.08220"⟩ ∧
    (∀ b : Body, (feedparse b).isDict = true ∧ (feedparse b).hasEntriesKey = true) := by
  refine ⟨rfl, rfl, rfl, fun b => ?_⟩
  cases b <;> exact ⟨rfl, rfl⟩

/-- C3 (counterexample): a transport failure in `search` and a not-found
failure in `get_paper` — two different failure kinds — raise exceptions of
the very same class (`ValueError`), so a caller cannot tell which of the
kinds occurred without inspecting the message text. -/
theorem failure_kinds_share_exception_class :
    resultExcType (searchResult (.httpError "connection timed out")) =
      resultExcType (getPaperResult "2103.08220" (.ok (.feedBody []))) ∧
    resultExcType (searchResult (.httpError "connection timed out")) = some "ValueError" :=
  ⟨rfl, rfl⟩

/-- Two strings whose character lists start differently are different. -/
lemma string_ne_of_head (a b : String) (h : a.data.head? ≠ b.data.head?) : a ≠ b :=
  fun he => h (by rw [he])

lemma head_http_error (m : String) :
    ("arXiv API HTTP error: " ++ m).data.head? = some 'a' := by
  rw [String.data_append]; rfl

lemma head_not_found (p : String) :
    ("Paper not found: " ++ p).data.head? = some 'P' := by
  rw [String.data_append]; rfl

/-- C3 (amended): the three failure kinds of `search` and `get_paper` —
transport error, malformed response, not found — are all raised with the same
exception class, `ValueError`; they are not pairwise distinguishable typed
failures, and a caller can only tell them apart by their message texts, whose
fixed prefixes are pairwise distinct. -/
theorem failure_kinds_distinct_messages_only (httpMsg paperId : String) :
    searchResult (.httpError httpMsg) =
      .error ⟨"ValueError", "arXiv API HTTP error: " ++ httpMsg⟩ ∧
    searchOnFeed ⟨false, false, [], false⟩ =
      .error ⟨"ValueError", "Invalid response from arXiv API"⟩ ∧
    getPaperOnFeed paperId ⟨true, true, [], false⟩ =
      .error ⟨"ValueError", "Paper not found: " ++ paperId⟩ ∧
    ("arXiv API HTTP error: " ++ httpMsg) ≠ "Invalid response from arXiv API" ∧
    ("arXiv API HTTP error: " ++ httpMsg) ≠ ("Paper not found: " ++ paperId) ∧
    ("Invalid response from arXiv API" : String) ≠ ("Paper not found: " ++ paperId) := by
  refine ⟨rfl, rfl, rfl, ?_, ?_, ?_⟩
  · exact string_ne_of_head _ _ (by rw [head_http_error]; decide)
  · exact string_ne_of_head _ _ (by rw [head_http_error, head_not_found]; decide)
  · exact string_ne_of_head _ _ (by rw [head_not_found]; decide)

/-! ## Entry normalization: authors, categories, links -/

lemma collectNames_eq_filterMap (items : List FeedItem) :
    collectNames items = items.filterMap itemName := by
  induction items with
  | nil => rfl
  | cons it rest ih =>
    simp only [collectNames, List.filterMap_cons]
    cases itemName it <;> simp [ih]

lemma collectTerms_eq_filterMap (items : List FeedItem) :
    collectTerms items = items.filterMap itemTerm := by
  induction items with
  | nil => rfl
  | cons it rest ih =>
    simp only [collectTerms, List.filterMap_cons]
    cases itemTerm it <;> simp [ih]

/-- C9: `_parse_entry` collects author names and category terms in feed
order, taking `item['name']`/`item.name` (`item['term']`/`item.term`) from
mapping or attribute items and silently skipping items with neither — i.e.
the loops compute an order-preserving `filterMap` — and an entry with no
author or tag items yields the empty sequence (never an absent field). -/
theorem authors_categories_in_order (e : FeedEntry) (items : List FeedItem) :
    (parseEntry e).authors = collectNames e.authors ∧
    (parseEntry e).categories = collectTerms e.tags ∧
    collectNames items = items.filterMap itemName ∧
    collectTerms items = items.filterMap itemTerm ∧
    collectNames [] = [] ∧
    collectTerms [] = [] ∧
    collectNames [FeedItem.dict [("name", "A. Bengio")], FeedItem.dict [("name", "Y. LeCun")]] =
      ["A. Bengio", "Y. LeCun"] ∧
    collectNames [FeedItem.obj [("name", "A. Author")], FeedItem.dict [("title", "x")],
      FeedItem.obj []] = ["A. Author"] :=
  ⟨rfl, rfl, collectNames_eq_filterMap items, collectTerms_eq_filterMap items,
    rfl, rfl, by decide, by decide⟩

/-- C2 (counterexample): on an entry whose link list holds two links of the
PDF media type, normalization sets `pdf_url` to the href of the second
(last) one, not of the first. -/
theorem pdf_url_not_first_link :
    (parseEntry twoPdfEntry).pdf_url = some "http://arxiv.org/pdf/second" ∧
    (parseEntry twoPdfEntry).pdf_url ≠ some "http://arxiv.org/pdf/first" := by
  constructor <;> decide

lemma scanLinks_fst (ls : List LinkItem) :
    ∀ p h : Option String, (scanLinks ls (p, h)).1 =
      (ls.filter isPdfLink).foldl (fun _ l => hrefOf l) p := by
  induction ls with
  | nil => intro p h; rfl
  | cons l rest ih =>
    intro p h
    cases l with
    | nonDict => simpa [scanLinks, List.filter_cons, isPdfLink] using ih p h
    | dict ty href =>
      by_cases hpdf : ty = some "application/pdf"
      · simp [scanLinks, List.filter_cons, isPdfLink, hpdf, ih, hrefOf]
      · by_cases hhtml : ty = some "text/html"
        · simp [scanLinks, List.filter_cons, isPdfLink, hpdf, hhtml, ih]
        · simp [scanLinks, List.filter_cons, isPdfLink, hpdf, hhtml, ih]

lemma scanLinks_snd (ls : List LinkItem) :
    ∀ p h : Option String, (scanLinks ls (p, h)).2 =
      (ls.filter isHtmlLink).foldl (fun _ l => hrefOf l) h := by
  induction ls with
  | nil => intro p h; rfl
  | cons l rest ih =>
    intro p h
    cases l with
    | nonDict => simpa [scanLinks, List.filter_cons, isHtmlLink] using ih p h
    | dict ty href =>
      by_cases hpdf : ty = some "application/pdf"
      · have : ¬ ty = some "text/html" := by simp [hpdf]
        simp [scanLinks, List.filter_cons, isHtmlLink, hpdf, this, ih]
      · by_cases hhtml : ty = some "text/html"
        · simp [scanLinks, List.filter_cons, isHtmlLink, hpdf, hhtml, ih, hrefOf]
        · simp [scanLinks, List.filter_cons, isHtmlLink, hpdf, hhtml, ih]

/-- A fold that replaces its accumulator with each element ends at the last
element (or at the seed when the list is empty). -/
lemma foldl_const_getLast? {α β : Type} (f : α → β) (xs : List α) :
    ∀ b : β, xs.foldl (fun _ x => f x) b = (xs.getLast?.map f).getD b := by
  induction xs with
  | nil => intro b; rfl
  | cons x xs ih =>
    intro b
    cases xs with
    | nil => rfl
    | cons y ys =>
      rw [List.foldl_cons, ih (f x), List.getLast?_cons_cons]
      cases hys : (y :: ys).getLast? with
      | none => simp at hys
      | some a => rfl

/-- C2 (amended): `pdf_url` (`html_url`) holds the href of the LAST link of
the PDF (HTML) media type found in the entry's link list — each matching link
overwrites the previous value — the field is `none` when no link of that type
exists, and when exactly one PDF link and one HTML link are present both
fields are populated with their respective hrefs, regardless of the order of
the link list. -/
theorem pdf_html_urls_last_match (e : FeedEntry) :
    (parseEntry e).pdf_url = ((e.links.filter isPdfLink).getLast?.map hrefOf).getD none ∧
    (parseEntry e).html_url = ((e.links.filter isHtmlLink).getLast?.map hrefOf).getD none ∧
    (e.links.filter isPdfLink = [] → (parseEntry e).pdf_url = none) ∧
    (e.links.filter isHtmlLink = [] → (parseEntry e).html_url = none) ∧
    (∀ lp lh : LinkItem, e.links.filter isPdfLink = [lp] → e.links.filter isHtmlLink = [lh] →
      (parseEntry e).pdf_url = hrefOf lp ∧ (parseEntry e).html_url = hrefOf lh) := by
  have hfst : (parseEntry e).pdf_url =
      ((e.links.filter isPdfLink).getLast?.map hrefOf).getD none := by
    show (scanLinks e.links (none, none)).1 = _
    rw [scanLinks_fst e.links none none, foldl_const_getLast?]
  have hsnd : (parseEntry e).html_url =
      ((e.links.filter isHtmlLink).getLast?.map hrefOf).getD none := by
    show (scanLinks e.links (none, none)).2 = _
    rw [scanLinks_snd e.links none none, foldl_const_getLast?]
  refine ⟨hfst, hsnd, ?_, ?_, ?_⟩
  · intro hnil; rw [hfst, hnil]; rfl
  · intro hnil; rw [hsnd, hnil]; rfl
  · intro lp lh hp hh
    exact ⟨by rw [hfst, hp]; rfl, by rw [hsnd, hh]; rfl⟩

/-! ## Text normalization -/

/-- Tokens produced by the whitespace split are nonempty and whitespace-free
(provided the running accumulator is whitespace-free). -/
lemma pySplitAux_tokens (l : List Char) :
    ∀ acc, (∀ c ∈ acc, isPySpace c = false) →
      ∀ t ∈ pySplitAux l acc, t ≠ [] ∧ ∀ c ∈ t, isPySpace c = false := by
  induction l with
  | nil =>
    intro acc hacc t ht
    simp only [pySplitAux] at ht
    split at ht
    · simp at ht
    · rename_i hne
      simp only [List.mem_singleton] at ht
      subst ht
      refine ⟨by simpa [List.isEmpty_iff] using hne, fun c hc => hacc c ?_⟩
      simpa using hc
  | cons c cs ih =>
    intro acc hacc t ht
    simp only [pySplitAux] at ht
    by_cases hsp : isPySpace c
    · rw [if_pos hsp] at ht
      split at ht
      · exact ih [] (by simp) t ht
      · rename_i hne
        rcases List.mem_cons.mp ht with rfl | hmem
        · refine ⟨by simpa [List.isEmpty_iff] using hne, fun d hd => hacc d ?_⟩
          simpa using hd
        · exact ih [] (by simp) t hmem
    · rw [if_neg hsp] at ht
      refine ih (c :: acc) ?_ t ht
      intro d hd
      rcases List.mem_cons.mp hd with rfl | hmem
      · exact Bool.not_eq_true _ ▸ (by simpa using hsp)
      · exact hacc d hmem

/-- Every token of `pySplitWhitespace` is nonempty and whitespace-free. -/
lemma pySplitWhitespace_tokens (l : List Char) :
    ∀ t ∈ pySplitWhitespace l, t ≠ [] ∧ ∀ c ∈ t, isPySpace c = false :=
  pySplitAux_tokens l [] (by simp)

/-- Joining nonempty whitespace-free tokens never yields the empty list. -/
lemma joinSpace_ne_nil {t : List Char} {ts : List (List Char)} (ht : t ≠ []) :
    joinSpace (t :: ts) ≠ [] := by
  simp only [joinSpace]
  split
  · exact ht
  · cases t with
    | nil => exact absurd rfl ht
    | cons a t' => simp

/-- A list whose characters are all non-whitespace is collapsed. -/
lemma collapsed_of_no_space {l : List Char} (h : ∀ c ∈ l, isPySpace c = false) :
    Collapsed l := by
  refine ⟨fun c hc hsp => absurd hsp (by simp [h c hc]), ?_, ?_, ?_⟩
  · induction l with
    | nil => exact List.chain'_nil
    | cons a l ih =>
      refine List.chain'_cons'.mpr ⟨fun y _ => ?_, ih fun c hc => h c (List.mem_cons_of_mem a hc)⟩
      rintro ⟨ha, _⟩
      exact absurd ha (by simp [h a (List.mem_cons_self a l)])
  · intro c hc
    exact h c (List.mem_of_mem_head? hc)
  · intro c hc
    exact h c (List.mem_of_mem_getLast? hc)

/-- Joining nonempty whitespace-free tokens with single spaces yields a
collapsed text. -/
lemma joinSpace_collapsed : ∀ ts : List (List Char),
    (∀ t ∈ ts, t ≠ [] ∧ ∀ c ∈ t, isPySpace c = false) → Collapsed (joinSpace ts) := by
  intro ts
  induction ts with
  | nil => intro _; exact collapsed_of_no_space (by simp [joinSpace])
  | cons t ts ih =>
    intro hts
    obtain ⟨htne, htok⟩ := hts t (List.mem_cons_self t ts)
    cases ts with
    | nil => exact collapsed_of_no_space (by simpa [joinSpace] using htok)
    | cons u us =>
      obtain ⟨hune, _⟩ := hts u (List.mem_cons_of_mem t (List.mem_cons_self u us))
      have hrest : Collapsed (joinSpace (u :: us)) :=
        ih fun s hs => hts s (List.mem_cons_of_mem t hs)
      have hrne : joinSpace (u :: us) ≠ [] := joinSpace_ne_nil hune
      have hj : joinSpace (t :: u :: us) = t ++ ' ' :: joinSpace (u :: us) := by
        simp [joinSpace]
      obtain ⟨hr1, hr2, hr3, hr4⟩ := hrest
      rw [hj]
      refine ⟨?_, ?_, ?_, ?_⟩
      · intro c hc hsp
        rcases List.mem_append.mp hc with hct | hcr
        · exact absurd hsp (by simp [htok c hct])
        · rcases List.mem_cons.mp hcr with rfl | hcr'
          · rfl
          · exact hr1 c hcr' hsp
      · refine List.chain'_append.mpr ⟨?_, ?_, ?_⟩
        · exact (collapsed_of_no_space htok).2.1
        · refine List.chain'_cons'.mpr ⟨fun y hy => ?_, hr2⟩
          rintro ⟨_, hy2⟩
          exact absurd hy2 (by simp [hr3 y hy])
        · intro x hx y hy
          rintro ⟨hx1, _⟩
          exact absurd hx1 (by simp [htok x (List.mem_of_mem_getLast? hx)])
      · intro c hc
        cases t with
        | nil => exact absurd rfl htne
        | cons a t' =>
          simp only [List.cons_append, List.head?_cons, Option.mem_def, Option.some.injEq] at hc
          exact hc ▸ htok a (List.mem_cons_self a t')
      · intro c hc
        rw [List.getLast?_append] at hc
        have h2 : (' ' :: joinSpace (u :: us)).getLast? = (joinSpace (u :: us)).getLast? := by
          cases hjr : joinSpace (u :: us) with
          | nil => exact absurd hjr hrne
          | cons b bs => exact List.getLast?_cons_cons
        rw [h2] at hc
        cases hlast : (joinSpace (u :: us)).getLast? with
        | none =>
          rw [hlast] at hc
          simp only [Option.none_or, Option.mem_def] at hc
          exact htok c (List.mem_of_mem_getLast? hc)
        | some b =>
          rw [hlast] at hc
          simp only [Option.or_some, Option.mem_def, Option.some.injEq] at hc
          exact hc ▸ hr4 b hlast

/-- Every cleaned text is collapsed. -/
lemma cleanText_collapsed (s : String) : Collapsed (cleanText s).data :=
  joinSpace_collapsed (pySplitWhitespace s.data) (pySplitWhitespace_tokens s.data)

/-- A collapsed text contains no newline character. -/
lemma no_newline_of_collapsed {l : List Char} (h : Collapsed l) : '\n' ∉ l := by
  intro hm
  have := h.1 '\n' hm (by decide)
  exact absurd this (by decide)

/-- C7: the normalized `title` and `summary` are the raw fields run through
`_clean_text` — every whitespace run (newlines included) collapsed to a
single space and the ends trimmed — an absent field yields the empty string,
the normalized text never contains a raw newline nor a run of more than one
whitespace character, and `"Foo\n\n  Bar   Baz"` normalizes to
`"Foo Bar Baz"`. -/
theorem title_summary_whitespace_collapsed (e : FeedEntry) :
    (parseEntry e).title = cleanText (e.title.getD "") ∧
    (parseEntry e).summary = cleanText (e.summary.getD "") ∧
    Collapsed (parseEntry e).title.data ∧
    Collapsed (parseEntry e).summary.data ∧
    '\n' ∉ (parseEntry e).title.data ∧
    '\n' ∉ (parseEntry e).summary.data ∧
    cleanText "" = "" ∧
    cleanText "Foo\n\n  Bar   Baz" = "Foo Bar Baz" :=
  ⟨rfl, rfl, cleanText_collapsed _, cleanText_collapsed _,
    no_newline_of_collapsed (cleanText_collapsed _),
    no_newline_of_collapsed (cleanText_collapsed _), rfl, by decide⟩

/-! ## Identifier extraction -/

/-- The token `acc.reverse` contains no occurrence of the separator, given
the scan invariant: no nonempty tail of `acc.reverse`, continued with the
unread input `l`, starts with the separator. -/
lemma no_sep_of_inv {l acc : List Char}
    (inv : ∀ a b, acc.reverse = a ++ b → b ≠ [] → ¬ absSep <+: (b ++ l)) :
    ¬ absSep <:+: acc.reverse := by
  rintro ⟨s, t, hst⟩
  refine inv s (absSep ++ t) ?_ (by simp [absSep]) ?_
  · rw [← hst, List.append_assoc]
  · exact ⟨t ++ l, by simp [List.append_assoc]⟩

/-- No token the separator scan emits contains an occurrence of the
separator: an occurrence inside a token would contradict the scan having
declined to split at the position where that occurrence starts. -/
lemma splitAbsAux_no_sep : ∀ fuel : Nat, ∀ l acc : List Char, l.length ≤ fuel →
    (∀ a b, acc.reverse = a ++ b → b ≠ [] → ¬ absSep <+: (b ++ l)) →
    ∀ t ∈ splitAbsAux fuel l acc, ¬ absSep <:+: t := by
  intro fuel
  induction fuel with
  | zero =>
    intro l acc hlen inv t ht
    have hl : l = [] := List.length_eq_zero.mp (Nat.le_zero.mp hlen)
    subst hl
    simp only [splitAbsAux, List.mem_singleton] at ht
    subst ht
    exact no_sep_of_inv inv
  | succ n ih =>
    intro l acc hlen inv t ht
    cases l with
    | nil =>
      simp only [splitAbsAux, List.mem_singleton] at ht
      subst ht
      exact no_sep_of_inv inv
    | cons c cs =>
      simp only [splitAbsAux] at ht
      split at ht
      · rename_i hp
        rcases List.mem_cons.mp ht with rfl | hmem
        · exact no_sep_of_inv inv
        · refine ih _ [] ?_ (by simp) t hmem
          have h5 : absSep.length = 5 := rfl
          simp only [List.length_drop, List.length_cons]
          simp only [List.length_cons] at hlen
          omega
      · rename_i hp
        have hnp : ¬ absSep <+: (c :: cs) := fun hpre =>
          hp ( List.isPrefixOf_iff_prefix.mpr hpre)
        refine ih cs (c :: acc) ?_ ?_ t ht
        · simp only [List.length_cons] at hlen
          omega
        · intro a b hab hbne
          rw [List.reverse_cons] at hab
          rcases List.append_eq_append_iff.mp hab.symm with ⟨a', ha1, ha2⟩ | ⟨c', hc1, hc2⟩
          · cases a' with
            | nil =>
              simp only [List.nil_append] at ha2
              rw [ha2]
              simpa using hnp
            | cons x xs =>
              subst ha2
              have hinv := inv a (x :: xs) ha1 (by simp)
              intro hpre
              refine hinv ?_
              have hassoc : (x :: xs) ++ [c] ++ cs = (x :: xs) ++ (c :: cs) := by
                simp [List.append_assoc]
              rw [← hassoc]
              exact hpre
          · cases c' with
            | nil =>
              simp only [List.nil_append] at hc2
              rw [← hc2]
              simpa using hnp
            | cons x xs =>
              simp only [List.cons_append] at hc2
              obtain ⟨-, hxs⟩ := List.cons.inj hc2
              obtain ⟨-, hb⟩ := List.append_eq_nil.mp hxs.symm
              exact absurd hb hbne

/-- No element of the split of `l` on the separator contains the separator. -/
lemma splitAbs_no_sep (l : List Char) : ∀ t ∈ splitAbs l, ¬ absSep <:+: t :=
  splitAbsAux_no_sep l.length l [] le_rfl (by simp)

/-- In particular the last element does not. -/
lemma lastElem_no_sep (l : List Char) : ¬ absSep <:+: lastElem (splitAbs l) := by
  unfold lastElem
  cases hlast : (splitAbs l).getLast? with
  | none => rw [Option.getD_none, List.infix_nil]; decide
  | some t => exact splitAbs_no_sep l t (List.mem_of_mem_getLast? hlast)

/-- Stripping trailing whitespace shortens the text from the right. -/
lemma pyRstrip_prefix_of (l : List Char) : pyRstrip l <+: l := by
  have h1 : l.reverse.dropWhile isPySpace <:+ l.reverse := List.dropWhile_suffix _
  have h2 := List.reverse_prefix.mpr h1
  rwa [List.reverse_reverse] at h2

/-- The extracted id never contains the separator. -/
lemma extractId_no_sep (ident : Option String) : ¬ absSep <:+: (extractId ident).data :=
  fun h => lastElem_no_sep (ident.getD "").data
    (h.trans ( List.IsPrefix.isInfix (pyRstrip_prefix_of _)))

/-- C8: the normalized `id` is the identifier URI split on the `"/abs/"`
marker, keeping the part after the split, with trailing whitespace stripped:
`"http://arxiv.org/abs/2103.08220v2"` yields `"2103.08220v2"`, an absent
identifier yields the empty string (not an error), and the normalized id
never contains the `"/abs/"` marker. -/
theorem id_extraction (e : FeedEntry) :
    (parseEntry e).id = extractId e.id ∧
    extractId (some "http://arxiv.org/abs/2103.08220v2") = "2103.08220v2" ∧
    extractId none = "" ∧
    ¬ absSep <:+: (parseEntry e).id.data ∧
    (e.id = none → (parseEntry e).id = "") :=
  ⟨rfl, by decide, rfl, extractId_no_sep e.id,
    fun h => by show extractId e.id = ""; rw [h]; rfl⟩
